import Mathlib

/-!
Verification development for the W-sub node-subscription aggregation pipeline.

The Python sources are shallowly embedded: strings are `List Char`, byte
strings are `List Nat` (each byte `< 256`), network and scheduling effects
become explicit function parameters, and fallible library calls return
`Option`.  Definitions follow the corresponding Python functions of
`w-sub.py`, `node_fetcher.py`, `node_selector.py` and
`node/node_processor.py`; definitions whose names end in `Spec` are instead
transcribed from the natural-language specification for comparison.
-/

set_option maxHeartbeats 1000000
set_option maxRecDepth 4000

/-! ### RFC 4648 Base64 over byte lists

`base64.b64encode` on the UTF-8 bytes of the joined node text, as used by
`NodeProcessor.generate_subscription` (w-sub.py line 385).  Node descriptor
strings are modelled by their byte sequences. -/

/-- Alphabet of RFC 4648 Base64, in encoding order. -/
def b64table : List Char :=
  "ABCDEFGHIJKLMNOPQRSTUVWXYZabcdefghijklmnopqrstuvwxyz0123456789+/".data

/-- Character for a six-bit group. -/
def encChar (n : Nat) : Char := b64table.getD n 'A'

/-- Six-bit value of an alphabet character, `none` outside the alphabet. -/
def decChar (c : Char) : Option Nat :=
  let n := c.toNat
  if 65 ≤ n ∧ n ≤ 90 then some (n - 65)
  else if 97 ≤ n ∧ n ≤ 122 then some (n - 97 + 26)
  else if 48 ≤ n ∧ n ≤ 57 then some (n - 48 + 52)
  else if n = 43 then some 62
  else if n = 47 then some 63
  else none

/-- RFC 4648 Base64 encoding of a byte list (no line wrapping). -/
def b64encode : List Nat → List Char
  | [] => []
  | [b1] => [encChar (b1 / 4), encChar (b1 % 4 * 16), '=', '=']
  | [b1, b2] =>
    [encChar (b1 / 4), encChar (b1 % 4 * 16 + b2 / 16), encChar (b2 % 16 * 4), '=']
  | b1 :: b2 :: b3 :: rest =>
    encChar (b1 / 4) :: encChar (b1 % 4 * 16 + b2 / 16) ::
    encChar (b2 % 16 * 4 + b3 / 64) :: encChar (b3 % 64) :: b64encode rest

/-- RFC 4648 Base64 decoding, the conformant reader of the wire format.  The
final block may carry one or two padding characters. -/
def b64decode : List Char → Option (List Nat)
  | [] => some []
  | c1 :: c2 :: c3 :: c4 :: rest =>
    match decChar c1, decChar c2, decChar c3, decChar c4 with
    | some d1, some d2, some d3, some d4 =>
      (b64decode rest).map
        (fun bs => (d1 * 4 + d2 / 16) :: (d2 % 16 * 16 + d3 / 4) ::
          (d3 % 4 * 64 + d4) :: bs)
    | some d1, some d2, some d3, none =>
      if c4 = '=' ∧ rest = [] then
        some [d1 * 4 + d2 / 16, d2 % 16 * 16 + d3 / 4]
      else none
    | some d1, some d2, none, none =>
      if c3 = '=' ∧ c4 = '=' ∧ rest = [] then some [d1 * 4 + d2 / 16] else none
    | _, _, _, _ => none
  | _ => none

theorem b64decode_cons (c1 c2 c3 c4 : Char) (rest : List Char) :
    b64decode (c1 :: c2 :: c3 :: c4 :: rest) =
    match decChar c1, decChar c2, decChar c3, decChar c4 with
    | some d1, some d2, some d3, some d4 =>
      (b64decode rest).map
        (fun bs => (d1 * 4 + d2 / 16) :: (d2 % 16 * 16 + d3 / 4) ::
          (d3 % 4 * 64 + d4) :: bs)
    | some d1, some d2, some d3, none =>
      if c4 = '=' ∧ rest = [] then
        some [d1 * 4 + d2 / 16, d2 % 16 * 16 + d3 / 4]
      else none
    | some d1, some d2, none, none =>
      if c3 = '=' ∧ c4 = '=' ∧ rest = [] then some [d1 * 4 + d2 / 16] else none
    | _, _, _, _ => none := rfl

theorem decChar_encChar : ∀ n, n < 64 → decChar (encChar n) = some n := by decide

theorem b64_roundtrip : ∀ bs : List Nat, (∀ b ∈ bs, b < 256) →
    b64decode (b64encode bs) = some bs := by
  intro bs
  induction bs using b64encode.induct with
  | case1 => intro _; rfl
  | case2 b1 =>
    intro h
    have hb1 : b1 < 256 := h b1 (by simp)
    show b64decode (encChar (b1 / 4) :: encChar (b1 % 4 * 16) :: '=' :: '=' :: []) =
      some [b1]
    rw [b64decode_cons, decChar_encChar _ (by omega), decChar_encChar _ (by omega)]
    have hpad : decChar '=' = none := rfl
    rw [hpad]
    simp only [decChar, Option.map_some']
    simp
    omega
  | case3 b1 b2 =>
    intro h
    have hb1 : b1 < 256 := h b1 (by simp)
    have hb2 : b2 < 256 := h b2 (by simp)
    show b64decode (encChar (b1 / 4) :: encChar (b1 % 4 * 16 + b2 / 16) ::
      encChar (b2 % 16 * 4) :: '=' :: []) = some [b1, b2]
    rw [b64decode_cons, decChar_encChar _ (by omega), decChar_encChar _ (by omega),
      decChar_encChar _ (by omega)]
    have hpad : decChar '=' = none := rfl
    rw [hpad]
    simp
    omega
  | case4 b1 b2 b3 rest ih =>
    intro h
    have hb1 : b1 < 256 := h b1 (by simp)
    have hb2 : b2 < 256 := h b2 (by simp)
    have hb3 : b3 < 256 := h b3 (by simp)
    have hrest : ∀ b ∈ rest, b < 256 := fun b hb => h b (by simp [hb])
    show b64decode (encChar (b1 / 4) :: encChar (b1 % 4 * 16 + b2 / 16) ::
      encChar (b2 % 16 * 4 + b3 / 64) :: encChar (b3 % 64) :: b64encode rest) =
      some (b1 :: b2 :: b3 :: rest)
    rw [b64decode_cons, decChar_encChar _ (by omega), decChar_encChar _ (by omega),
      decChar_encChar _ (by omega), decChar_encChar _ (by omega), ih hrest]
    simp
    omega

/-! ### Subscription encoder (C1)

`NodeProcessor.generate_subscription` (w-sub.py lines 379-394): join the node
list with a newline separator and Base64-encode the joined text.  Descriptor
strings are modelled as their byte sequences; the newline separator is
byte 10. -/

/-- Wire encoding of an ordered descriptor list: join with the newline byte,
then Base64-encode the result (w-sub.py lines 381-387). -/
def generate_subscription (nodes : List (List Nat)) : List Char :=
  b64encode (List.intercalate [10] nodes)

/-- Conformant reader of the wire format per the specification: Base64-decode
and split on the line separator. -/
def decodeSubscription (s : List Char) : Option (List (List Nat)) :=
  (b64decode s).map (fun bs => bs.splitOn 10)

theorem mem_intercalate_newline {nodes : List (List Nat)}
    (h : ∀ d ∈ nodes, ∀ b ∈ d, b < 256) :
    ∀ b ∈ List.intercalate [10] nodes, b < 256 := by
  induction nodes with
  | nil => simp [List.intercalate]
  | cons d rest ih =>
    cases rest with
    | nil =>
      intro b hb
      simp only [List.intercalate, List.intersperse, List.flatten] at hb
      exact h d (by simp) b (by simpa using hb)
    | cons e t =>
      intro b hb
      simp only [List.intercalate, List.intersperse_cons₂, List.flatten_cons,
        List.mem_append, List.mem_cons, List.mem_singleton] at hb
      rcases hb with hbd | hb
      · exact h d (by simp) b hbd
      · rcases hb with hb10 | hb
        · rcases hb10 with rfl | h0
          · omega
          · simp at h0
        · exact ih (fun d' hd' => h d' (by simp [hd'])) b
            (by simpa [List.intercalate] using hb)

/-- C1 (amended): for every non-empty descriptor list whose descriptors are
byte strings not containing the separator byte, decoding the generated
subscription reproduces exactly the descriptor list, in order. -/
theorem c1_generate_subscription_roundtrip (nodes : List (List Nat))
    (hne : nodes ≠ [])
    (hb : ∀ d ∈ nodes, ∀ b ∈ d, b < 256)
    (hnl : ∀ d ∈ nodes, 10 ∉ d) :
    decodeSubscription (generate_subscription nodes) = some nodes := by
  unfold decodeSubscription generate_subscription
  rw [b64_roundtrip _ (mem_intercalate_newline hb)]
  simp only [Option.map_some']
  exact congrArg some (List.splitOn_intercalate nodes 10 hnl hne)

/-- Witness for C1 (amended) at a concrete two-descriptor list. -/
theorem c1_generate_subscription_roundtrip_witness :
    decodeSubscription (generate_subscription [[97, 98], [99]]) =
      some [[97, 98], [99]] :=
  c1_generate_subscription_roundtrip [[97, 98], [99]] (by decide) (by decide)
    (by decide)

/-- Counterexample to C1 as stated: on the empty descriptor list the decoded
content splits into one empty line, not the empty list. -/
theorem c1_empty_list_counterexample :
    decodeSubscription (generate_subscription []) ≠ some [] := by decide

/-! ### Stable insertion sort

Python `list.sort` / `sorted` are stable; both uses in the sources
(`node_selector.py` line 194, `node/node_processor.py` line 320) sort by a
numeric key.  A stable insertion sort with a boolean comparison models them:
an element is inserted in front of the first element it compares
less-or-equal to, so elements with equal keys keep their prior order. -/

def sInsert (le : α → α → Bool) (x : α) : List α → List α
  | [] => [x]
  | y :: ys => if le x y then x :: y :: ys else y :: sInsert le x ys

def sSort (le : α → α → Bool) : List α → List α
  | [] => []
  | x :: xs => sInsert le x (sSort le xs)

theorem mem_sInsert (le : α → α → Bool) (x y : α) (l : List α) :
    y ∈ sInsert le x l ↔ y = x ∨ y ∈ l := by
  induction l with
  | nil => simp [sInsert]
  | cons a t ih =>
    simp only [sInsert]
    split
    · simp
    · simp only [List.mem_cons, ih]
      tauto

theorem length_sInsert (le : α → α → Bool) (x : α) (l : List α) :
    (sInsert le x l).length = l.length + 1 := by
  induction l with
  | nil => rfl
  | cons a t ih =>
    simp only [sInsert]
    split <;> simp [ih]

theorem length_sSort (le : α → α → Bool) (l : List α) :
    (sSort le l).length = l.length := by
  induction l with
  | nil => rfl
  | cons a t ih => simp [sSort, length_sInsert, ih]

theorem mem_sSort (le : α → α → Bool) (y : α) (l : List α) :
    y ∈ sSort le l ↔ y ∈ l := by
  induction l with
  | nil => simp [sSort]
  | cons a t ih => simp [sSort, mem_sInsert, ih]

/-! ### Protocol priority ordering

`NodeProcessor._sort_nodes_by_quality` (node/node_processor.py lines
302-320): sort descending by a static per-protocol priority table, unknown
protocols getting priority 2.  Python `node.split('://')[0]` never raises,
so the except-branch priority 1 is unreachable. -/

/-- Substring split at the first occurrence of a separator: `none` when the
separator does not occur. -/
def splitOnceSub (sep : List Char) : List Char → Option (List Char × List Char)
  | [] => if sep = [] then some ([], []) else none
  | c :: rest =>
    if sep.isPrefixOf (c :: rest) then some ([], (c :: rest).drop sep.length)
    else
      match splitOnceSub sep rest with
      | some (pre, post) => some (c :: pre, post)
      | none => none

/-- Lowercase a string, Python `str.lower` on ASCII protocol tokens. -/
def lowerStr (s : List Char) : List Char := s.map Char.toLower

/-- Static protocol-priority table of `_sort_nodes_by_quality`
(node/node_processor.py lines 306-310), with `.get(protocol, 2)` default. -/
def protocol_priority (p : List Char) : Nat :=
  if p = "vless".data then 10 else if p = "vmess".data then 9
  else if p = "trojan".data then 8 else if p = "shadowsocks".data then 7
  else if p = "ss".data then 7 else if p = "hysteria".data then 6
  else if p = "hysteria2".data then 6 else if p = "tuic".data then 5
  else if p = "socks".data then 4 else if p = "http".data then 3
  else if p = "https".data then 3 else 2

/-- Priority of a node string: `node.split('://')[0].lower()` looked up in the
table (node/node_processor.py lines 312-317). -/
def get_priority (node : List Char) : Nat :=
  protocol_priority
    (lowerStr (((splitOnceSub "://".data node).map Prod.fst).getD node))

/-- Descending-priority comparison; equal priorities keep prior order, which
matches Python `sorted(nodes, key=get_priority, reverse=True)` stability. -/
def leQual (a b : List Char) : Bool := get_priority b ≤ get_priority a

/-- `NodeProcessor._sort_nodes_by_quality` (node/node_processor.py line 320). -/
def sort_nodes_by_quality (nodes : List (List Char)) : List (List Char) :=
  sSort leQual nodes

/-! ### Node selector (C2, C3, C4)

`NodeSelector.test_and_select_best_nodes` (node_selector.py lines 171-212).
The concurrent probing of the thread pool is modelled by a latency oracle
`speed` (`NodeTester.test_node_speed` returning `None` on failure becomes
`Option Nat`, latency units preserved) together with an explicit `arrival`
list: the order in which `concurrent.futures.as_completed` yields the
results, a scheduler-dependent permutation of the submitted nodes. -/

/-- Collection loop (node_selector.py lines 184-191): each completed future
with a non-`None` speed contributes a `(node, speed)` pair, in completion
order. -/
def collectResults (speed : List Char → Option Nat)
    (arrival : List (List Char)) : List (List Char × Nat) :=
  arrival.filterMap (fun n => (speed n).map (fun v => (n, v)))

/-- Comparison used by `self.nodes_with_speed.sort(key=lambda x: x[1])`. -/
def lePair (a b : List Char × Nat) : Bool := a.2 ≤ b.2

/-- `NodeSelector.test_and_select_best_nodes` (node_selector.py lines
171-212): sort the successfully probed nodes by latency; if none succeeded
return all input nodes; otherwise return the first
`min(BEST_NODES_COUNT, len(nodes_with_speed))` of them. -/
def test_and_select_best_nodes (bestNodesCount : Nat)
    (speed : List Char → Option Nat)
    (nodes arrival : List (List Char)) : List (List Char) :=
  let nws := sSort lePair (collectResults speed arrival)
  if nws.isEmpty then nodes
  else (nws.take (min bestNodesCount nws.length)).map Prod.fst

/-- Latency order of the specification: ascending latency with unreachable
treated as plus infinity, sorting after every finite latency. -/
def leLat (speed : List Char → Option Nat) (a b : List Char) : Bool :=
  match speed a, speed b with
  | some x, some y => x ≤ y
  | some _, none => true
  | none, some _ => false
  | none, none => true

/-- Selector policy transcribed from the specification: sort ascending by
latency, unreachable as plus infinity, and take the first N. -/
def selectBestSpec (n : Nat) (speed : List Char → Option Nat)
    (nodes : List (List Char)) : List (List Char) :=
  (sSort (leLat speed) nodes).take n

theorem collectResults_coherent (speed : List Char → Option Nat)
    (arrival : List (List Char)) :
    ∀ p ∈ collectResults speed arrival, p.1 ∈ arrival ∧ speed p.1 = some p.2 := by
  intro p hp
  simp only [collectResults, List.mem_filterMap] at hp
  obtain ⟨n, hn, he⟩ := hp
  cases hs : speed n with
  | none => rw [hs] at he; simp at he
  | some v =>
    rw [hs] at he
    simp only [Option.map_some', Option.some.injEq] at he
    subst he
    exact ⟨hn, hs⟩

theorem collectResults_ne_nil (speed : List Char → Option Nat)
    (arrival : List (List Char)) (x : List Char) (hx : x ∈ arrival)
    (hs : (speed x).isSome) : collectResults speed arrival ≠ [] := by
  intro h
  obtain ⟨v, hv⟩ := Option.isSome_iff_exists.mp hs
  have : (x, v) ∈ collectResults speed arrival := by
    simp only [collectResults, List.mem_filterMap]
    exact ⟨x, hx, by rw [hv]; rfl⟩
  rw [h] at this
  simp at this

theorem collectResults_eq_nil (speed : List Char → Option Nat)
    (arrival : List (List Char)) (h : ∀ x ∈ arrival, speed x = none) :
    collectResults speed arrival = [] := by
  induction arrival with
  | nil => rfl
  | cons a t ih =>
    simp only [collectResults, List.filterMap_cons, h a (by simp)]
    exact ih (fun x hx => h x (by simp [hx]))

/-- C2 (amended): every node the selector returns occurs in the input list,
and whenever at least one probe produced a finite latency the output length
is bounded by the configured best-nodes count.  When every probe fails the
selector instead returns the entire input list, which may exceed the bound. -/
theorem c2_selector_membership_and_bound (bestCount : Nat)
    (speed : List Char → Option Nat) (nodes arrival : List (List Char))
    (harr : ∀ x ∈ arrival, x ∈ nodes)
    (hsome : ∃ x ∈ arrival, (speed x).isSome) :
    (∀ y ∈ test_and_select_best_nodes bestCount speed nodes arrival, y ∈ nodes) ∧
    (test_and_select_best_nodes bestCount speed nodes arrival).length ≤
      bestCount := by
  obtain ⟨x, hx, hxs⟩ := hsome
  have hne : collectResults speed arrival ≠ [] :=
    collectResults_ne_nil speed arrival x hx hxs
  have hlen : (sSort lePair (collectResults speed arrival)).length =
      (collectResults speed arrival).length := length_sSort _ _
  have hemp : (sSort lePair (collectResults speed arrival)).isEmpty = false := by
    rw [List.isEmpty_eq_false]
    intro h0
    rw [← List.length_eq_zero, hlen, List.length_eq_zero] at h0
    exact hne h0
  unfold test_and_select_best_nodes
  simp only [hemp, Bool.false_eq_true, if_false]
  constructor
  · intro y hy
    simp only [List.mem_map] at hy
    obtain ⟨p, hp, rfl⟩ := hy
    have hp' : p ∈ sSort lePair (collectResults speed arrival) :=
      List.mem_of_mem_take hp
    rw [mem_sSort] at hp'
    exact harr _ (collectResults_coherent speed arrival p hp').1
  · simp only [List.length_map, List.length_take]
    omega

/-- Witness for C2 (amended) with two probed nodes and best-count 2. -/
theorem c2_selector_membership_and_bound_witness :
    (∀ y ∈ test_and_select_best_nodes 2
        (fun n => if n = "trojan://pw@a:443".data then some 50
          else if n = "trojan://pw@b:443".data then some 10 else none)
        ["trojan://pw@a:443".data, "trojan://pw@b:443".data]
        ["trojan://pw@a:443".data, "trojan://pw@b:443".data],
      y ∈ ["trojan://pw@a:443".data, "trojan://pw@b:443".data]) ∧
    (test_and_select_best_nodes 2
        (fun n => if n = "trojan://pw@a:443".data then some 50
          else if n = "trojan://pw@b:443".data then some 10 else none)
        ["trojan://pw@a:443".data, "trojan://pw@b:443".data]
        ["trojan://pw@a:443".data, "trojan://pw@b:443".data]).length ≤ 2 :=
  c2_selector_membership_and_bound 2 _ _ _ (by decide) (by decide)

/-- Counterexample to C2 as stated: with three candidates, best-count 2 and
every probe failing, the selector returns all three nodes (length 3 > 2); and
with latencies 50 and 10 the output `[B, A]` is not a subsequence of the
input `[A, B]`. -/
theorem c2_counterexample :
    ¬ ((test_and_select_best_nodes 2 (fun _ => none)
        ["trojan://pw@a:443".data, "trojan://pw@b:443".data,
          "trojan://pw@c:443".data]
        ["trojan://pw@a:443".data, "trojan://pw@b:443".data,
          "trojan://pw@c:443".data]).length ≤ 2) ∧
    ¬ (test_and_select_best_nodes 2
        (fun n => if n = "trojan://pw@a:443".data then some 50
          else if n = "trojan://pw@b:443".data then some 10 else none)
        ["trojan://pw@a:443".data, "trojan://pw@b:443".data]
        ["trojan://pw@a:443".data, "trojan://pw@b:443".data]).Sublist
      ["trojan://pw@a:443".data, "trojan://pw@b:443".data] := by
  constructor
  · decide
  · intro h
    have he : test_and_select_best_nodes 2
        (fun n => if n = "trojan://pw@a:443".data then some 50
          else if n = "trojan://pw@b:443".data then some 10 else none)
        ["trojan://pw@a:443".data, "trojan://pw@b:443".data]
        ["trojan://pw@a:443".data, "trojan://pw@b:443".data] =
        ["trojan://pw@b:443".data, "trojan://pw@a:443".data] := by decide
    rw [he] at h
    exact absurd (h.eq_of_length rfl) (by decide)

/-- C3 (amended): when no probe at all yields a finite latency the selector
returns the full candidate list unchanged, in its original order and without
truncation; the static protocol-priority ordering is applied by
`merge_nodes`, not by the selector. -/
theorem c3_selector_allfail_returns_input (bestCount : Nat)
    (speed : List Char → Option Nat) (nodes arrival : List (List Char))
    (h : ∀ x ∈ arrival, speed x = none) :
    test_and_select_best_nodes bestCount speed nodes arrival = nodes := by
  unfold test_and_select_best_nodes
  rw [collectResults_eq_nil speed arrival h]
  rfl

/-- Witness for C3 (amended): every probe fails, the input comes back whole. -/
theorem c3_selector_allfail_returns_input_witness :
    test_and_select_best_nodes 1 (fun _ => none)
      ["http://aaaaaaaaaaaa".data, "vless://bbbbbbbbbbb".data]
      ["http://aaaaaaaaaaaa".data, "vless://bbbbbbbbbbb".data] =
      ["http://aaaaaaaaaaaa".data, "vless://bbbbbbbbbbb".data] :=
  c3_selector_allfail_returns_input 1 _ _ _ (by decide)

/-- Counterexample to C3 as stated: with zero finite-latency results (fewer
than any positive configured minimum) and N equal to 1, the selector output
is not the priority-descending ordering of the candidates truncated to N —
the code returns the whole input in original order instead. -/
theorem c3_counterexample :
    test_and_select_best_nodes 1 (fun _ => none)
      ["http://aaaaaaaaaaaa".data, "vless://bbbbbbbbbbb".data]
      ["http://aaaaaaaaaaaa".data, "vless://bbbbbbbbbbb".data] ≠
    (sort_nodes_by_quality
      ["http://aaaaaaaaaaaa".data, "vless://bbbbbbbbbbb".data]).take 1 := by
  decide

theorem map_fst_sInsert_pair (speed : List Char → Option Nat)
    (p : List Char × Nat) (ps : List (List Char × Nat))
    (hp : speed p.1 = some p.2) (hc : ∀ q ∈ ps, speed q.1 = some q.2) :
    (sInsert lePair p ps).map Prod.fst =
      sInsert (leLat speed) p.1 (ps.map Prod.fst) := by
  induction ps with
  | nil => rfl
  | cons q qs ih =>
    have hq : speed q.1 = some q.2 := hc q (by simp)
    have hcond : lePair p q = leLat speed p.1 q.1 := by
      simp [lePair, leLat, hp, hq]
    simp only [sInsert, List.map_cons]
    rw [← hcond]
    by_cases h : lePair p q
    · simp [h]
    · simp only [Bool.not_eq_true] at h
      simp [h, ih (fun r hr => hc r (by simp [hr]))]

theorem coherent_sSort (speed : List Char → Option Nat)
    (ps : List (List Char × Nat)) (hc : ∀ q ∈ ps, speed q.1 = some q.2) :
    ∀ q ∈ sSort lePair ps, speed q.1 = some q.2 := by
  intro q hq
  exact hc q ((mem_sSort _ _ _).mp hq)

theorem map_fst_sSort_pairs (speed : List Char → Option Nat)
    (ps : List (List Char × Nat)) (hc : ∀ q ∈ ps, speed q.1 = some q.2) :
    (sSort lePair ps).map Prod.fst = sSort (leLat speed) (ps.map Prod.fst) := by
  induction ps with
  | nil => rfl
  | cons p ps ih =>
    have hp : speed p.1 = some p.2 := hc p (by simp)
    have hc' : ∀ q ∈ ps, speed q.1 = some q.2 := fun q hq => hc q (by simp [hq])
    simp only [sSort, List.map_cons]
    rw [map_fst_sInsert_pair speed p _ hp (coherent_sSort speed ps hc'), ih hc']

theorem map_fst_collectResults (speed : List Char → Option Nat)
    (l : List (List Char)) :
    (collectResults speed l).map Prod.fst =
      l.filter (fun n => (speed n).isSome) := by
  induction l with
  | nil => rfl
  | cons a t ih =>
    simp only [collectResults, List.filterMap_cons, List.filter_cons]
    cases hs : speed a with
    | none => simpa [hs] using ih
    | some v =>
      simp only [Option.map_some', List.map_cons, Option.isSome_some, if_pos]
      rw [← ih]
      rfl

theorem sInsert_none_append (speed : List Char → Option Nat) (x : List Char)
    (hx : speed x = none) (A B : List (List Char))
    (hA : ∀ a ∈ A, (speed a).isSome) (hB : ∀ b ∈ B, speed b = none) :
    sInsert (leLat speed) x (A ++ B) = A ++ x :: B := by
  induction A with
  | nil =>
    cases B with
    | nil => rfl
    | cons b bs =>
      have hb : speed b = none := hB b (by simp)
      simp [sInsert, leLat, hx, hb]
  | cons a A' ih =>
    have ha : (speed a).isSome := hA a (by simp)
    obtain ⟨v, hv⟩ := Option.isSome_iff_exists.mp ha
    have hcond : leLat speed x a = false := by simp [leLat, hx, hv]
    simp only [List.cons_append, sInsert, hcond, Bool.false_eq_true, if_false,
      List.append_eq]
    rw [ih (fun a' ha' => hA a' (by simp [ha']))]

theorem sInsert_some_append (speed : List Char → Option Nat) (x : List Char)
    (hx : (speed x).isSome) (A B : List (List Char))
    (hB : ∀ b ∈ B, speed b = none) :
    sInsert (leLat speed) x (A ++ B) = sInsert (leLat speed) x A ++ B := by
  obtain ⟨v, hv⟩ := Option.isSome_iff_exists.mp hx
  induction A with
  | nil =>
    cases B with
    | nil => rfl
    | cons b bs =>
      have hb : speed b = none := hB b (by simp)
      simp [sInsert, leLat, hv, hb]
  | cons a A' ih =>
    simp only [List.cons_append, sInsert]
    by_cases h : leLat speed x a
    · simp [h]
    · simp only [Bool.not_eq_true] at h
      simp only [h, Bool.false_eq_true, if_false, List.cons_append,
        List.append_eq]
      rw [ih]

theorem sSort_leLat_split (speed : List Char → Option Nat)
    (l : List (List Char)) :
    sSort (leLat speed) l =
      sSort (leLat speed) (l.filter (fun n => (speed n).isSome)) ++
        l.filter (fun n => !(speed n).isSome) := by
  induction l with
  | nil => rfl
  | cons x t ih =>
    cases hx : speed x with
    | none =>
      have hfil : (x :: t).filter (fun n => (speed n).isSome) =
          t.filter (fun n => (speed n).isSome) := by
        simp [List.filter_cons, hx]
      have hfil' : (x :: t).filter (fun n => !(speed n).isSome) =
          x :: t.filter (fun n => !(speed n).isSome) := by
        simp [List.filter_cons, hx]
      rw [hfil, hfil']
      show sInsert (leLat speed) x (sSort (leLat speed) t) = _
      rw [ih]
      exact sInsert_none_append speed x hx _ _
        (fun a ha => by
          have := (mem_sSort _ _ _).mp ha
          simpa using (List.mem_filter.mp this).2)
        (fun b hb => by
          have := (List.mem_filter.mp hb).2
          simpa using this)
    | some v =>
      have hxs : (speed x).isSome := by simp [hx]
      have hfil : (x :: t).filter (fun n => (speed n).isSome) =
          x :: t.filter (fun n => (speed n).isSome) := by
        simp [List.filter_cons, hx]
      have hfil' : (x :: t).filter (fun n => !(speed n).isSome) =
          t.filter (fun n => !(speed n).isSome) := by
        simp [List.filter_cons, hx]
      rw [hfil, hfil']
      show sInsert (leLat speed) x (sSort (leLat speed) t) = _
      rw [ih, sInsert_some_append speed x hxs _ _
        (fun b hb => by
          have := (List.mem_filter.mp hb).2
          simpa using this)]
      rfl

/-- C4 (confirmed): with a positive target count N covered by the number of
finite-latency probe results, the selector output equals the specification
policy: sort ascending by latency treating unreachable as plus infinity and
take the first N.  The completion order is taken to be the submission order;
the concrete `[(A,50),(B,10),(C,unreachable)]`, N = 2 instance appears in
the witness. -/
theorem c4_selector_matches_latency_policy (bestCount : Nat)
    (speed : List Char → Option Nat) (nodes : List (List Char))
    (hpos : 0 < bestCount)
    (hN : bestCount ≤ (collectResults speed nodes).length) :
    test_and_select_best_nodes bestCount speed nodes nodes =
      selectBestSpec bestCount speed nodes := by
  have hc := fun q hq => (collectResults_coherent speed nodes q hq).2
  have hlen : (sSort lePair (collectResults speed nodes)).length =
      (collectResults speed nodes).length := length_sSort _ _
  have hemp : (sSort lePair (collectResults speed nodes)).isEmpty = false := by
    rw [List.isEmpty_eq_false]
    intro h0
    rw [← List.length_eq_zero, hlen] at h0
    omega
  have hflen : (sSort (leLat speed)
      (nodes.filter (fun n => (speed n).isSome))).length =
      (collectResults speed nodes).length := by
    rw [length_sSort, ← map_fst_collectResults speed nodes, List.length_map]
  unfold test_and_select_best_nodes selectBestSpec
  simp only [hemp, Bool.false_eq_true, if_false]
  rw [hlen, Nat.min_eq_left hN, List.map_take,
    map_fst_sSort_pairs speed _ hc, map_fst_collectResults,
    sSort_leLat_split speed nodes,
    List.take_append_of_le_length (by rw [hflen]; exact hN)]

/-- Witness for C4: probe results latencies 50 for A, 10 for B, unreachable
for C, target count 2: the selector returns exactly B then A, agreeing with
the specification policy. -/
theorem c4_selector_matches_latency_policy_witness :
    test_and_select_best_nodes 2
      (fun n => if n = "trojan://pw@a:443".data then some 50
        else if n = "trojan://pw@b:443".data then some 10 else none)
      ["trojan://pw@a:443".data, "trojan://pw@b:443".data,
        "trojan://pw@c:443".data]
      ["trojan://pw@a:443".data, "trojan://pw@b:443".data,
        "trojan://pw@c:443".data] =
      ["trojan://pw@b:443".data, "trojan://pw@a:443".data] ∧
    selectBestSpec 2
      (fun n => if n = "trojan://pw@a:443".data then some 50
        else if n = "trojan://pw@b:443".data then some 10 else none)
      ["trojan://pw@a:443".data, "trojan://pw@b:443".data,
        "trojan://pw@c:443".data] =
      ["trojan://pw@b:443".data, "trojan://pw@a:443".data] := by
  constructor
  · rw [c4_selector_matches_latency_policy 2 _ _ (by decide) (by decide)]
    decide
  · decide

/-! ### Python string and library-call models

Helpers shared by the embeddings: `str.strip`, substring membership,
`str.split`, Python `base64.b64decode` (lenient and `validate=True`
variants), UTF-8 decoding (strict and `errors='ignore'`), and a model of
`json.loads` sufficient for the vmess/vless payloads. -/

/-- Python whitespace used by `str.strip`. -/
def pySpace (c : Char) : Bool :=
  c = ' ' ∨ c = '\t' ∨ c = '\n' ∨ c = '\r' ∨ c = '\x0b' ∨ c = '\x0c'

/-- Python `str.strip()`. -/
def pyStrip (s : List Char) : List Char :=
  ((s.dropWhile pySpace).reverse.dropWhile pySpace).reverse

/-- Python substring membership `pat in s`. -/
def hasSub (pat : List Char) : List Char → Bool
  | [] => pat.isEmpty
  | c :: rest => pat.isPrefixOf (c :: rest) || hasSub pat rest

/-- Python `s.split(sep)` (full split), via a fuel-bounded loop so that it
stays kernel-reducible.  With the fuel at least the string length plus one
the fuel never runs out. -/
def pySplitAllAux (sep : List Char) : Nat → List Char → List (List Char)
  | 0, s => [s]
  | fuel + 1, s =>
    match splitOnceSub sep s with
    | some (pre, post) => pre :: pySplitAllAux sep fuel post
    | none => [s]

/-- Python `s.split(sep)` without a maxsplit bound. -/
def pySplitAll (sep s : List Char) : List (List Char) :=
  pySplitAllAux sep (s.length + 1) s

/-- Membership in the Base64 alphabet. -/
def isB64Char (c : Char) : Bool :=
  let n := c.toNat
  (65 ≤ n ∧ n ≤ 90) ∨ (97 ≤ n ∧ n ≤ 122) ∨ (48 ≤ n ∧ n ≤ 57) ∨ n = 43 ∨ n = 47

/-- Decode a run of Base64 data characters: full four-character groups plus
an optional two- or three-character final group (the padded tail). -/
def decodeGroups : List Char → Option (List Nat)
  | [] => some []
  | [c1, c2] =>
    match decChar c1, decChar c2 with
    | some d1, some d2 => some [d1 * 4 + d2 / 16]
    | _, _ => none
  | [c1, c2, c3] =>
    match decChar c1, decChar c2, decChar c3 with
    | some d1, some d2, some d3 =>
      some [d1 * 4 + d2 / 16, d2 % 16 * 16 + d3 / 4]
    | _, _, _ => none
  | c1 :: c2 :: c3 :: c4 :: rest =>
    match decChar c1, decChar c2, decChar c3, decChar c4, decodeGroups rest with
    | some d1, some d2, some d3, some d4, some bs =>
      some ((d1 * 4 + d2 / 16) :: (d2 % 16 * 16 + d3 / 4) ::
        (d3 % 4 * 64 + d4) :: bs)
    | _, _, _, _, _ => none
  | _ => none

/-- Core of Python `binascii.a2b_base64`: data characters are the characters
before the first `'='`; decoding succeeds when the data length is a multiple
of four, or two or three modulo four with enough padding characters
following (excess padding is tolerated in non-strict mode). -/
def pyB64core (kept : List Char) : Option (List Nat) :=
  let data := kept.takeWhile (fun c => c ≠ '=')
  let pad := kept.length - data.length
  if data.length % 4 ≠ 1 ∧ (4 - data.length % 4) % 4 ≤ pad then
    decodeGroups data
  else none

/-- Python `base64.b64decode(s)` without `validate`: characters outside the
alphabet and `'='` are discarded before decoding. -/
def pyB64decodeLenient (s : List Char) : Option (List Nat) :=
  pyB64core (s.filter (fun c => isB64Char c || c = '='))

/-- Python `base64.b64decode(s, validate=True)`: any character outside the
alphabet and `'='` raises instead of being discarded. -/
def pyB64decodeStrict (s : List Char) : Option (List Nat) :=
  if s.all (fun c => isB64Char c || c = '=') then pyB64core s else none

/-- Continuation-byte test for UTF-8. -/
def utf8Cont (b : Nat) : Bool := 128 ≤ b ∧ b < 192

/-- Fuel-bounded UTF-8 decoder.  In strict mode an invalid sequence yields
`none` (Python `bytes.decode('utf-8')`); otherwise the offending byte is
skipped (Python `errors='ignore'`, modelled byte-by-byte). -/
def utf8DecodeAux (strict : Bool) : Nat → List Nat → Option (List Char)
  | _, [] => some []
  | 0, _ :: _ => none
  | fuel + 1, b :: rest =>
    if b < 128 then (utf8DecodeAux strict fuel rest).map (Char.ofNat b :: ·)
    else if 194 ≤ b ∧ b ≤ 223 then
      match rest with
      | b2 :: rest2 =>
        if utf8Cont b2 then
          (utf8DecodeAux strict fuel rest2).map
            (Char.ofNat ((b - 192) * 64 + (b2 - 128)) :: ·)
        else if strict then none else utf8DecodeAux strict fuel rest
      | [] => if strict then none else some []
    else if 224 ≤ b ∧ b ≤ 239 then
      match rest with
      | b2 :: b3 :: rest3 =>
        if utf8Cont b2 ∧ (b ≠ 224 ∨ 160 ≤ b2) ∧ (b ≠ 237 ∨ b2 < 160) ∧
            utf8Cont b3 then
          (utf8DecodeAux strict fuel rest3).map
            (Char.ofNat ((b - 224) * 4096 + (b2 - 128) * 64 + (b3 - 128)) :: ·)
        else if strict then none else utf8DecodeAux strict fuel rest
      | _ => if strict then none else some []
    else if 240 ≤ b ∧ b ≤ 244 then
      match rest with
      | b2 :: b3 :: b4 :: rest4 =>
        if utf8Cont b2 ∧ (b ≠ 240 ∨ 144 ≤ b2) ∧ (b ≠ 244 ∨ b2 < 144) ∧
            utf8Cont b3 ∧ utf8Cont b4 then
          (utf8DecodeAux strict fuel rest4).map
            (Char.ofNat ((b - 240) * 262144 + (b2 - 128) * 4096 +
              (b3 - 128) * 64 + (b4 - 128)) :: ·)
        else if strict then none else utf8DecodeAux strict fuel rest
      | _ => if strict then none else some []
    else if strict then none else utf8DecodeAux strict fuel rest

/-- Python `bytes.decode('utf-8')`, strict. -/
def utf8DecodeStrict (bs : List Nat) : Option (List Char) :=
  utf8DecodeAux true bs.length bs

/-- Python `bytes.decode('utf-8', errors='ignore')`, total. -/
def utf8DecodeIgnore (bs : List Nat) : List Char :=
  (utf8DecodeAux false bs.length bs).getD []

/-! ### Minimal model of Python `json.loads`

Sufficient for the flat vmess/vless payload objects: objects, arrays,
strings with the common escapes, integer numbers, and the three literals.
Fractional and exponent numbers and `\u` escapes are rejected by the model;
duplicate object keys follow the last occurrence, as Python dicts do. -/

inductive JVal where
  | jnull : JVal
  | jbool : Bool → JVal
  | jnum : Int → JVal
  | jstr : List Char → JVal
  | jarr : List JVal → JVal
  | jobj : List (List Char × JVal) → JVal

/-- Opening brace character, written by code so that no brace appears in a
string literal. -/
def lbraceC : Char := Char.ofNat 123

/-- Closing brace character. -/
def rbraceC : Char := Char.ofNat 125

/-- JSON whitespace. -/
def jWs (c : Char) : Bool := c = ' ' ∨ c = '\t' ∨ c = '\n' ∨ c = '\r'

/-- JSON string body after the opening quote: returns the content and the
remainder after the closing quote. -/
def pStrAux : List Char → Option (List Char × List Char)
  | [] => none
  | c :: rest =>
    if c = '"' then some ([], rest)
    else if c = '\\' then
      match rest with
      | [] => none
      | e :: rest2 =>
        let esc : Option Char :=
          if e = '"' then some '"' else if e = '\\' then some '\\'
          else if e = '/' then some '/' else if e = 'n' then some '\n'
          else if e = 't' then some '\t' else if e = 'r' then some '\r'
          else if e = 'b' then some (Char.ofNat 8)
          else if e = 'f' then some (Char.ofNat 12) else none
        match esc with
        | some ch => (pStrAux rest2).map (fun p => (ch :: p.1, p.2))
        | none => none
    else (pStrAux rest).map (fun p => (c :: p.1, p.2))

/-- Digit run value. -/
def digitsToNat (ds : List Char) : Nat :=
  ds.foldl (fun a c => a * 10 + (c.toNat - 48)) 0

/-- Parser modes: a single value, the members of an object after its opening
brace, or the items of an array after its opening bracket. -/
inductive JMode where
  | val : JMode
  | members : List (List Char × JVal) → JMode
  | items : List JVal → JMode

/-- Fuel-bounded recursive-descent JSON parser. -/
def jP : Nat → JMode → List Char → Option (JVal × List Char)
  | 0, _, _ => none
  | fuel + 1, JMode.val, s =>
    match s.dropWhile jWs with
    | [] => none
    | c :: rest =>
      if c = lbraceC then
        match rest.dropWhile jWs with
        | c2 :: rest2 =>
          if c2 = rbraceC then some (JVal.jobj [], rest2)
          else jP fuel (JMode.members []) (c2 :: rest2)
        | [] => none
      else if c = '[' then
        match rest.dropWhile jWs with
        | c2 :: rest2 =>
          if c2 = ']' then some (JVal.jarr [], rest2)
          else jP fuel (JMode.items []) (c2 :: rest2)
        | [] => none
      else if c = '"' then
        (pStrAux rest).map (fun p => (JVal.jstr p.1, p.2))
      else if c = 't' then
        if "rue".data.isPrefixOf rest then some (JVal.jbool true, rest.drop 3)
        else none
      else if c = 'f' then
        if "alse".data.isPrefixOf rest then some (JVal.jbool false, rest.drop 4)
        else none
      else if c = 'n' then
        if "ull".data.isPrefixOf rest then some (JVal.jnull, rest.drop 3)
        else none
      else if c = '-' then
        let ds := rest.takeWhile Char.isDigit
        let rest2 := rest.dropWhile Char.isDigit
        if ds = [] then none
        else if rest2.head? = some '.' ∨ rest2.head? = some 'e' ∨
            rest2.head? = some 'E' then none
        else some (JVal.jnum (-(digitsToNat ds : Int)), rest2)
      else if c.isDigit then
        let ds := (c :: rest).takeWhile Char.isDigit
        let rest2 := (c :: rest).dropWhile Char.isDigit
        if rest2.head? = some '.' ∨ rest2.head? = some 'e' ∨
            rest2.head? = some 'E' then none
        else some (JVal.jnum (digitsToNat ds : Int), rest2)
      else none
  | fuel + 1, JMode.members acc, s =>
    match s.dropWhile jWs with
    | c :: rest =>
      if c = '"' then
        match pStrAux rest with
        | none => none
        | some (key, afterKey) =>
          match afterKey.dropWhile jWs with
          | ':' :: afterColon =>
            match jP fuel JMode.val afterColon with
            | none => none
            | some (v, afterVal) =>
              match afterVal.dropWhile jWs with
              | ',' :: afterComma =>
                jP fuel (JMode.members (acc ++ [(key, v)])) afterComma
              | c3 :: rest3 =>
                if c3 = rbraceC then
                  some (JVal.jobj (acc ++ [(key, v)]), rest3)
                else none
              | [] => none
          | _ => none
      else none
    | [] => none
  | fuel + 1, JMode.items acc, s =>
    match jP fuel JMode.val s with
    | none => none
    | some (v, afterVal) =>
      match afterVal.dropWhile jWs with
      | ',' :: afterComma => jP fuel (JMode.items (acc ++ [v])) afterComma
      | ']' :: rest3 => some (JVal.jarr (acc ++ [v]), rest3)
      | _ => none

/-- Model of `json.loads`: parse one value and require only whitespace to
remain. -/
def jsonLoads (s : List Char) : Option JVal :=
  match jP (2 * s.length + 8) JMode.val s with
  | some (v, rest) => if rest.dropWhile jWs = [] then some v else none
  | none => none

/-- Last-occurrence lookup in a parsed object, matching Python dict
construction where later duplicate keys overwrite earlier ones. -/
def lookupLast (fields : List (List Char × JVal)) (key : List Char) :
    Option JVal :=
  (fields.reverse.find? (fun f => f.1 == key)).map Prod.snd

/-- Decimal digits of a natural number, fuel-bounded. -/
def natToCharsAux : Nat → Nat → List Char → List Char
  | 0, _, acc => acc
  | fuel + 1, n, acc =>
    let d := Char.ofNat (48 + n % 10)
    if n < 10 then d :: acc else natToCharsAux fuel (n / 10) (d :: acc)

/-- Decimal representation of a natural number. -/
def natToChars (n : Nat) : List Char := natToCharsAux (n + 1) n []

/-- Python `f"...{value}..."` formatting of a JSON value: strings verbatim,
integers in decimal, booleans capitalized, `None` for null.  Containers are
abbreviated (their Python `repr` is not modelled; no key derived in the
sources formats a container). -/
def jvalToStr : JVal → List Char
  | JVal.jstr s => s
  | JVal.jnum n =>
    if n < 0 then '-' :: natToChars n.natAbs else natToChars n.natAbs
  | JVal.jbool b => if b then "True".data else "False".data
  | JVal.jnull => "None".data
  | JVal.jarr _ => "<list>".data
  | JVal.jobj _ => "<dict>".data

/-! ### Node processor: extraction and filtering (C5)

`NodeProcessor` of node/node_processor.py.  The constructor configuration is
a record; connectivity probing (a network effect) is an oracle parameter,
disabled by default as in the shipped configuration. -/

structure NPConfig where
  blacklist_domains : List (List Char)
  blacklist_ips : List (List Char)
  preferred_protocols : List (List Char)
  check_connectivity : Bool
  connOracle : List Char → Bool

/-- Default configuration: empty blacklists, no preferred protocols,
connectivity checking off (node/node_processor.py lines 20-27). -/
def npDefault : NPConfig := ⟨[], [], [], false, fun _ => true⟩

/-- `NodeProcessor._try_decode_base64` (node/node_processor.py lines
322-336): direct lenient decode with strict UTF-8, then a retry with `'='`
padding appended when the raw length is not a multiple of four. -/
def np_try_decode_base64 (content : List Char) : Option (List Char) :=
  match (pyB64decodeLenient content).bind utf8DecodeStrict with
  | some d => some d
  | none =>
    let missing := content.length % 4
    let content2 :=
      if missing ≠ 0 then content ++ List.replicate (4 - missing) '=' else content
    (pyB64decodeLenient content2).bind utf8DecodeStrict

/-- Supported scheme tokens of `_is_valid_node_format`
(node/node_processor.py lines 89-93). -/
def supported_protocols : List (List Char) :=
  ["vmess".data, "v2ray".data, "trojan".data, "trojan-go".data,
   "shadowsocks".data, "shadowsocksr".data, "vless".data, "ss".data,
   "ssr".data, "hysteria".data, "hysteria2".data, "tuic".data,
   "wireguard".data, "naiveproxy".data, "socks".data, "http".data,
   "https".data, "clash".data]

/-- `NodeProcessor._is_valid_node_format` (node/node_processor.py lines
86-102): case-insensitive scheme prefix plus minimum-length checks on the
part after the first `'://'`. -/
def is_valid_node_format (line : List Char) : Bool :=
  supported_protocols.any (fun p =>
    (p ++ "://".data).isPrefixOf (lowerStr line) ∧
    p.length + 3 < line.length ∧
    10 < ((pySplitAll "://".data line).getD 1 []).length)

/-- `NodeProcessor._is_in_blacklist` (node/node_processor.py lines 129-144):
case-insensitive substring match against blacklist domains, raw substring
match against blacklist IPs. -/
def is_in_blacklist (cfg : NPConfig) (node : List Char) : Bool :=
  let nl := lowerStr node
  cfg.blacklist_domains.any (fun d => hasSub (lowerStr d) nl) ||
    cfg.blacklist_ips.any (fun ip => hasSub ip nl)

/-- `NodeProcessor._check_node_basic_validity` (node/node_processor.py lines
146-181): split at `'://'`, require a payload of at least ten characters;
for vmess/vless/trojan the padded payload must Base64-decode, and for
vmess/vless the decoded text must parse as JSON. -/
def check_node_basic_validity (node : List Char) : Bool :=
  match splitOnceSub "://".data node with
  | none => false
  | some (protocol, content) =>
    if content.length < 10 then false
    else if protocol = "vmess".data ∨ protocol = "vless".data ∨
        protocol = "trojan".data then
      let padded :=
        if content.length % 4 ≠ 0 then
          content ++ List.replicate (4 - content.length % 4) '='
        else content
      match pyB64decodeLenient padded with
      | none => false
      | some bytes =>
        if protocol = "vmess".data ∨ protocol = "vless".data then
          (jsonLoads (utf8DecodeIgnore bytes)).isSome
        else true
    else true

/-- `NodeProcessor._should_keep_node` (node/node_processor.py lines
104-127): blacklist, preferred-protocol, structural-validity and optional
connectivity checks, short-circuiting in that order. -/
def should_keep_node (cfg : NPConfig) (node : List Char) : Bool :=
  if is_in_blacklist cfg node then false
  else if cfg.preferred_protocols ≠ [] ∧
      ¬ (cfg.preferred_protocols.map lowerStr).contains
        (lowerStr ((pySplitAll "://".data node).getD 0 node)) then false
  else if ¬ check_node_basic_validity node then false
  else if cfg.check_connectivity ∧ ¬ cfg.connOracle node then false
  else true

/-- Effective content of `_extract_nodes`: the Base64-decoded text when the
decode attempt produced a non-empty string (Python truthiness of
`decoded_content`), otherwise the original content
(node/node_processor.py lines 66-69). -/
def np_effective_content (content : List Char) : List Char :=
  match np_try_decode_base64 content with
  | some d => if d ≠ [] then d else content
  | none => content

/-- `NodeProcessor._extract_nodes` (node/node_processor.py lines 62-84):
split the effective content into lines, strip each, and keep the non-empty
lines that pass the format and filter checks, in line order. -/
def np_extract_nodes (cfg : NPConfig) (content : List Char) :
    List (List Char) :=
  (((np_effective_content content).splitOn '\n').map pyStrip).filter
    (fun line => line ≠ [] ∧ is_valid_node_format line ∧
      should_keep_node cfg line)

/-- C5 (amended): within a single source the extractor preserves original
line order — its output is a sublist of the stripped lines of the effective
content — but it does not remove exact-string repeats; deduplication only
happens later in `merge_nodes`. -/
theorem c5_extractor_preserves_line_order (cfg : NPConfig)
    (content : List Char) :
    List.Sublist (np_extract_nodes cfg content)
      (((np_effective_content content).splitOn '\n').map pyStrip) :=
  List.filter_sublist _

/-- Counterexample to C5 as stated: a source whose plaintext repeats the
same valid descriptor line three times yields that descriptor three times —
exact-string repeats within a single source are not removed. -/
theorem c5_counterexample :
    np_extract_nodes npDefault
      ("hysteria://abcdefghijk".data ++ '\n' ::
        "hysteria://abcdefghijk".data ++ '\n' :: "hysteria://abcdefghijk".data) =
      ["hysteria://abcdefghijk".data, "hysteria://abcdefghijk".data,
        "hysteria://abcdefghijk".data] ∧
    ¬ (np_extract_nodes npDefault
      ("hysteria://abcdefghijk".data ++ '\n' ::
        "hysteria://abcdefghijk".data ++ '\n' ::
        "hysteria://abcdefghijk".data)).Nodup := by
  constructor
  · decide
  · decide

/-! ### Identity resolver and merge deduplication (C6, C7)

`NodeProcessor._get_node_key` (node/node_processor.py lines 261-300) and the
deduplication loop of `NodeProcessor.merge_nodes` (lines 234-248). -/

/-- `NodeProcessor._get_node_key`: for vmess/vless decode the padded Base64
payload, parse JSON and read `add`/`port`; for trojan/shadowsocks/ss/ssr
take `host:port` after the first `'@'`; every failure and every other
protocol yields `none`. -/
def get_node_key (node : List Char) : Option (List Char) :=
  match splitOnceSub "://".data node with
  | none => none
  | some (protocol, content) =>
    if protocol = "vmess".data ∨ protocol = "vless".data then
      let padded :=
        if content.length % 4 ≠ 0 then
          content ++ List.replicate (4 - content.length % 4) '='
        else content
      match (pyB64decodeLenient padded).bind utf8DecodeStrict with
      | none => none
      | some decoded =>
        match jsonLoads decoded with
        | some (JVal.jobj fields) =>
          match lookupLast fields "add".data, lookupLast fields "port".data with
          | some addV, some portV =>
            some (protocol ++ ':' :: (jvalToStr addV ++ ':' :: jvalToStr portV))
          | _, _ => none
        | _ => none
    else if protocol = "trojan".data ∨ protocol = "shadowsocks".data ∨
        protocol = "ss".data ∨ protocol = "ssr".data then
      let parts := pySplitAll ['@'] content
      if 1 < parts.length ∧ (parts.getD 1 []).contains ':' then
        let serverInfo := (parts.getD 1 []).takeWhile (fun c => c ≠ '#')
        if serverInfo.contains ':' then
          match splitOnceSub [':'] serverInfo with
          | some (host, port0) =>
            some (protocol ++ ':' ::
              (host ++ ':' :: port0.takeWhile (fun c => c ≠ '?')))
          | none => none
        else none
      else none
    else none

/-- State of the deduplication loop of `merge_nodes`: the raw strings seen
(`unique_nodes`), the identity keys seen (`key_attributes` keys) and the
output accumulator (`all_nodes`). -/
structure MergeState where
  uniq : List (List Char)
  keys : List (List Char)
  acc : List (List Char)

/-- One iteration of the loop body (node/node_processor.py lines 236-248). -/
def mergeStep (s : MergeState) (node : List Char) : MergeState :=
  if node ∈ s.uniq then s
  else
    match get_node_key node with
    | some k =>
      if k ∈ s.keys then s
      else ⟨node :: s.uniq, k :: s.keys, s.acc ++ [node]⟩
    | none => ⟨node :: s.uniq, s.keys, s.acc ++ [node]⟩

/-- The loop over an incoming descriptor sequence. -/
def mergeRun (s : MergeState) (l : List (List Char)) : MergeState :=
  l.foldl mergeStep s

/-- Deduplication of an incoming descriptor sequence, from the empty state. -/
def mergeDedup (l : List (List Char)) : List (List Char) :=
  (mergeRun ⟨[], [], []⟩ l).acc

/-- Loop invariant: the raw-string set tracks exactly the accumulator, the
key set tracks exactly the keys of accumulated nodes, and the accumulator
has no duplicates. -/
def MInv (s : MergeState) : Prop :=
  (∀ n, n ∈ s.uniq ↔ n ∈ s.acc) ∧
  (∀ k, k ∈ s.keys ↔ ∃ n ∈ s.acc, get_node_key n = some k) ∧
  s.acc.Nodup

theorem mergeStep_inv {s : MergeState} (hs : MInv s) (node : List Char) :
    MInv (mergeStep s node) := by
  obtain ⟨h1, h2, h3⟩ := hs
  unfold mergeStep
  by_cases hu : node ∈ s.uniq
  · simpa [hu] using ⟨h1, h2, h3⟩
  · simp only [hu, if_false]
    cases hk : get_node_key node with
    | some k =>
      by_cases hmem : k ∈ s.keys
      · simpa [hmem] using ⟨h1, h2, h3⟩
      · simp only [hmem, if_false]
        refine ⟨?_, ?_, ?_⟩
        · intro m
          simp only [List.mem_cons, List.mem_append, List.mem_singleton, h1]
          tauto
        · intro k'
          simp only [List.mem_cons, h2]
          constructor
          · rintro (rfl | ⟨n, hn, hkey⟩)
            · exact ⟨node, by simp, hk⟩
            · exact ⟨n, by simp [hn], hkey⟩
          · rintro ⟨n, hn, hkey⟩
            rcases List.mem_append.mp hn with hn' | hn'
            · exact Or.inr ⟨n, hn', hkey⟩
            · left
              rw [List.mem_singleton] at hn'
              subst hn'
              rw [hk] at hkey
              exact (Option.some.injEq _ _ ▸ hkey).symm ▸ rfl
        · refine List.Nodup.append h3 (by simp) ?_
          intro a ha hb
          rw [List.mem_singleton] at hb
          subst hb
          exact hu ((h1 a).mpr ha)
    | none =>
      refine ⟨?_, ?_, ?_⟩
      · intro m
        simp only [List.mem_cons, List.mem_append, List.mem_singleton, h1]
        tauto
      · intro k'
        simp only [h2]
        constructor
        · rintro ⟨n, hn, hkey⟩
          exact ⟨n, by simp [hn], hkey⟩
        · rintro ⟨n, hn, hkey⟩
          rcases List.mem_append.mp hn with hn' | hn'
          · exact ⟨n, hn', hkey⟩
          · rw [List.mem_singleton] at hn'
            subst hn'
            rw [hk] at hkey
            cases hkey
      · refine List.Nodup.append h3 (by simp) ?_
        intro a ha hb
        rw [List.mem_singleton] at hb
        subst hb
        exact hu ((h1 a).mpr ha)

theorem mergeRun_inv : ∀ (l : List (List Char)) (s : MergeState), MInv s →
    MInv (mergeRun s l)
  | [], _, hs => hs
  | n :: t, s, hs => mergeRun_inv t (mergeStep s n) (mergeStep_inv hs n)

theorem mergeStep_acc (s : MergeState) (n : List Char) :
    (mergeStep s n).acc = s.acc ∨ (mergeStep s n).acc = s.acc ++ [n] := by
  unfold mergeStep
  by_cases hu : n ∈ s.uniq
  · simp [hu]
  · simp only [hu, if_false]
    cases hk : get_node_key n with
    | some k =>
      by_cases hmem : k ∈ s.keys
      · simp [hmem]
      · simp [hmem]
    | none => simp

theorem mergeRun_acc_extends : ∀ (l : List (List Char)) (s : MergeState),
    ∃ t, (mergeRun s l).acc = s.acc ++ t ∧ List.Sublist t l
  | [], s => ⟨[], by simp [mergeRun], List.nil_sublist []⟩
  | n :: l, s => by
    obtain ⟨u, hu, hsub⟩ := mergeRun_acc_extends l (mergeStep s n)
    show ∃ t, (mergeRun (mergeStep s n) l).acc = s.acc ++ t ∧ _
    rcases mergeStep_acc s n with h | h
    · exact ⟨u, by rw [hu, h], hsub.cons n⟩
    · refine ⟨n :: u, ?_, hsub.cons₂ n⟩
      rw [hu, h, List.append_assoc]
      rfl

theorem mergeRun_filter_key (k : List Char) :
    ∀ (l : List (List Char)) (s : MergeState), MInv s →
      (mergeRun s l).acc.filter (fun n => get_node_key n == some k) =
        s.acc.filter (fun n => get_node_key n == some k) ++
          (if k ∈ s.keys then []
            else (l.filter (fun n => get_node_key n == some k)).take 1)
  | [], s, _ => by
    by_cases hks : k ∈ s.keys <;> simp [mergeRun, hks]
  | n :: t, s, hs => by
    have hstep := mergeStep_inv hs n
    have ih := mergeRun_filter_key k t (mergeStep s n) hstep
    show (mergeRun (mergeStep s n) t).acc.filter _ = _
    rw [ih]
    by_cases hu : n ∈ s.uniq
    · have hse : mergeStep s n = s := by simp [mergeStep, hu]
      rw [hse]
      by_cases hks : k ∈ s.keys
      · simp [hks]
      · have hPn : ¬ (get_node_key n == some k) = true := by
          intro hP
          rw [beq_iff_eq] at hP
          exact hks ((hs.2.1 k).mpr ⟨n, (hs.1 n).mp hu, hP⟩)
        simp [hks, List.filter_cons, hPn]
    · cases hk : get_node_key n with
      | some k' =>
        by_cases hmem : k' ∈ s.keys
        · have hse : mergeStep s n = s := by simp [mergeStep, hu, hk, hmem]
          rw [hse]
          by_cases hks : k ∈ s.keys
          · simp [hks]
          · have hPn : ¬ (get_node_key n == some k) = true := by
              intro hP
              rw [beq_iff_eq] at hP
              rw [hk] at hP
              exact hks (Option.some.inj hP ▸ hmem)
            simp [hks, List.filter_cons, hPn]
        · have hse : mergeStep s n =
              ⟨n :: s.uniq, k' :: s.keys, s.acc ++ [n]⟩ := by
            simp [mergeStep, hu, hk, hmem]
          rw [hse]
          by_cases hkk : k' = k
          · subst hkk
            have hPn : (get_node_key n == some k') = true := by
              rw [beq_iff_eq]; exact hk
            have hks : k' ∉ s.keys := hmem
            simp [List.filter_append, List.filter_cons, hPn, hks]
          · have hPn : ¬ (get_node_key n == some k) = true := by
              intro hP
              rw [beq_iff_eq] at hP
              rw [hk] at hP
              exact hkk (Option.some.inj hP)
            have hmemc : (k ∈ k' :: s.keys) ↔ k ∈ s.keys := by
              simp [Ne.symm hkk]
            by_cases hks : k ∈ s.keys
            · simp [hks, hmemc, List.filter_append, List.filter_cons, hPn]
            · simp [hks, hmemc, List.filter_append, List.filter_cons, hPn]
      | none =>
        have hse : mergeStep s n = ⟨n :: s.uniq, s.keys, s.acc ++ [n]⟩ := by
          simp [mergeStep, hu, hk]
        rw [hse]
        have hPn : ¬ (get_node_key n == some k) = true := by
          intro hP
          rw [beq_iff_eq] at hP
          rw [hk] at hP
          cases hP
        by_cases hks : k ∈ s.keys
        · simp [hks, List.filter_append, List.filter_cons, hPn]
        · simp [hks, List.filter_append, List.filter_cons, hPn]

theorem mergeRun_mem_none (n : List Char) (hkey : get_node_key n = none) :
    ∀ (l : List (List Char)) (s : MergeState), MInv s →
      (n ∈ (mergeRun s l).acc ↔ n ∈ s.acc ∨ n ∈ l)
  | [], s, _ => by simp [mergeRun]
  | m :: t, s, hs => by
    have hstep := mergeStep_inv hs m
    have ih := mergeRun_mem_none n hkey t (mergeStep s m) hstep
    show n ∈ (mergeRun (mergeStep s m) t).acc ↔ _
    rw [ih]
    by_cases hmn : m = n
    · subst hmn
      by_cases hu : m ∈ s.uniq
      · have hin : m ∈ s.acc := (hs.1 m).mp hu
        have hse : mergeStep s m = s := by simp [mergeStep, hu]
        rw [hse]
        simp [hin]
      · have hse : mergeStep s m = ⟨m :: s.uniq, s.keys, s.acc ++ [m]⟩ := by
          simp [mergeStep, hu, hkey]
        rw [hse]
        simp
    · have hacc : n ∈ (mergeStep s m).acc ↔ n ∈ s.acc := by
        rcases mergeStep_acc s m with h | h
        · rw [h]
        · rw [h]
          simp [Ne.symm hmn]
      rw [hacc]
      have : (n ∈ m :: t) ↔ n ∈ t := by simp [Ne.symm hmn]
      rw [this]

/-- C6 (confirmed): the deduplication loop keeps a descriptor exactly when
neither its raw string nor its resolved identity key was seen before: the
output has no duplicate raw strings, is a first-seen-order subsequence of
the input, and for every identity key the surviving descriptors with that
key are exactly the first input descriptor resolving to it. -/
theorem c6_merge_first_seen_wins (l : List (List Char)) (k : List Char) :
    (mergeDedup l).Nodup ∧ List.Sublist (mergeDedup l) l ∧
    (mergeDedup l).filter (fun n => get_node_key n == some k) =
      (l.filter (fun n => get_node_key n == some k)).take 1 := by
  have hinv0 : MInv ⟨[], [], []⟩ :=
    ⟨by simp, by simp, List.nodup_nil⟩
  refine ⟨(mergeRun_inv l _ hinv0).2.2, ?_, ?_⟩
  · obtain ⟨t, ht, hsub⟩ := mergeRun_acc_extends l ⟨[], [], []⟩
    unfold mergeDedup
    rw [ht]
    simpa using hsub
  · have h := mergeRun_filter_key k l ⟨[], [], []⟩ hinv0
    unfold mergeDedup
    rw [h]
    simp

/-- C7 (confirmed): a descriptor whose identity cannot be resolved is never
dropped by deduplication unless its exact raw string already occurred: it
survives the merge exactly when it occurs in the input.  The embedded
resolver is total — malformed Base64, UTF-8, or JSON yield `none`, never an
error. -/
theorem c7_unresolvable_descriptor_kept (l : List (List Char))
    (n : List Char) (h : get_node_key n = none) :
    n ∈ mergeDedup l ↔ n ∈ l := by
  have hinv0 : MInv ⟨[], [], []⟩ :=
    ⟨by simp, by simp, List.nodup_nil⟩
  have hmem := mergeRun_mem_none n h l ⟨[], [], []⟩ hinv0
  unfold mergeDedup
  rw [hmem]
  simp

/-- Witness for C7: a vmess descriptor with malformed Base64 payload has an
unresolvable identity, and it survives the merge of a two-descriptor list. -/
theorem c7_unresolvable_descriptor_kept_witness :
    get_node_key "vmess://@@@@@@@@@@@@".data = none ∧
    ("vmess://@@@@@@@@@@@@".data ∈
        mergeDedup ["trojan://pw@h:443#x".data, "vmess://@@@@@@@@@@@@".data] ↔
      "vmess://@@@@@@@@@@@@".data ∈
        ["trojan://pw@h:443#x".data, "vmess://@@@@@@@@@@@@".data]) :=
  ⟨by decide, c7_unresolvable_descriptor_kept _ _ (by decide)⟩

/-! ### Source fetcher retry loops (C8)

`NodeFetcher.fetch_nodes` (node_fetcher.py lines 37-66) and
`NodeProcessor.fetch_nodes` (node/node_processor.py lines 34-60).  The
network is an oracle `resp`: `resp k` is the (already stripped) response
text of attempt `k` when that attempt gets an HTTP 200, and `none` on a
network-level failure (timeout, connection error, non-success status, which
`raise_for_status` turns into an exception).  Extraction is the abstract
`extractf`.  The loop counter counts remaining attempts. -/

/-- node_fetcher.py loop: a successful response ends the loop immediately,
its extraction result — possibly empty — becoming the answer; failures
retry until the attempts are exhausted, leaving the empty list. -/
def nf_fetch_loop (extractf : List Char → List (List Char))
    (resp : Nat → Option (List Char)) : Nat → Nat → List (List Char)
  | _, 0 => []
  | k, tries + 1 =>
    match resp k with
    | some content => extractf content
    | none => nf_fetch_loop extractf resp (k + 1) tries

/-- `NodeFetcher.fetch_nodes` with `max_retry + 1` total attempts. -/
def nf_fetch_nodes (maxRetry : Nat) (extractf : List Char → List (List Char))
    (resp : Nat → Option (List Char)) : List (List Char) :=
  nf_fetch_loop extractf resp 0 (maxRetry + 1)

/-- node/node_processor.py loop: a successful response ends the loop only
when the stripped content is non-empty and extraction finds at least one
node; otherwise the attempt counts as failed and the loop retries. -/
def np_fetch_loop (extractf : List Char → List (List Char))
    (resp : Nat → Option (List Char)) : Nat → Nat → List (List Char)
  | _, 0 => []
  | k, tries + 1 =>
    match resp k with
    | some content =>
      if content.isEmpty then np_fetch_loop extractf resp (k + 1) tries
      else
        let ns := extractf content
        if ns.isEmpty then np_fetch_loop extractf resp (k + 1) tries else ns
    | none => np_fetch_loop extractf resp (k + 1) tries

/-- `NodeProcessor.fetch_nodes` with `max_retry + 1` total attempts. -/
def np_fetch_nodes (maxRetry : Nat) (extractf : List Char → List (List Char))
    (resp : Nat → Option (List Char)) : List (List Char) :=
  np_fetch_loop extractf resp 0 (maxRetry + 1)

theorem nf_loop_first_success (extractf : List Char → List (List Char))
    (resp : Nat → Option (List Char)) (c : List Char) :
    ∀ (tries k j : Nat), k ≤ j → j < k + tries → resp j = some c →
      (∀ i, k ≤ i → i < j → resp i = none) →
      nf_fetch_loop extractf resp k tries = extractf c := by
  intro tries
  induction tries with
  | zero => intro k j h1 h2; omega
  | succ t ih =>
    intro k j h1 h2 hc hprev
    show nf_fetch_loop extractf resp k (t + 1) = _
    rcases Nat.eq_or_lt_of_le h1 with rfl | hlt
    · simp [nf_fetch_loop, hc]
    · have hk : resp k = none := hprev k (Nat.le_refl k) hlt
      simp only [nf_fetch_loop, hk]
      exact ih (k + 1) j hlt (by omega) hc
        (fun i hi1 hi2 => hprev i (by omega) hi2)

theorem np_loop_first_success (extractf : List Char → List (List Char))
    (resp : Nat → Option (List Char)) (c : List Char) :
    ∀ (tries k j : Nat), k ≤ j → j < k + tries → resp j = some c →
      c ≠ [] → extractf c ≠ [] →
      (∀ i, k ≤ i → i < j → resp i = none) →
      np_fetch_loop extractf resp k tries = extractf c := by
  intro tries
  induction tries with
  | zero => intro k j h1 h2; omega
  | succ t ih =>
    intro k j h1 h2 hc hcne hene hprev
    show np_fetch_loop extractf resp k (t + 1) = _
    rcases Nat.eq_or_lt_of_le h1 with rfl | hlt
    · have h1' : c.isEmpty = false := by simpa [List.isEmpty_eq_false] using hcne
      have h2' : (extractf c).isEmpty = false := by
        simpa [List.isEmpty_eq_false] using hene
      simp [np_fetch_loop, hc, h1', h2']
    · have hk : resp k = none := hprev k (Nat.le_refl k) hlt
      simp only [np_fetch_loop, hk]
      exact ih (k + 1) j hlt (by omega) hc hcne hene
        (fun i hi1 hi2 => hprev i (by omega) hi2)

theorem nf_loop_nonodes (extractf : List Char → List (List Char))
    (resp : Nat → Option (List Char)) :
    ∀ (tries k : Nat),
      (∀ i, k ≤ i → i < k + tries → ∀ c, resp i = some c → extractf c = []) →
      nf_fetch_loop extractf resp k tries = [] := by
  intro tries
  induction tries with
  | zero => intro k _; rfl
  | succ t ih =>
    intro k h
    show nf_fetch_loop extractf resp k (t + 1) = _
    cases hk : resp k with
    | some c =>
      simpa [nf_fetch_loop, hk] using
        h k (Nat.le_refl k) (by omega) c hk
    | none =>
      simp only [nf_fetch_loop, hk]
      exact ih (k + 1) (fun i hi1 hi2 c hc => h i (by omega) (by omega) c hc)

theorem np_loop_nonodes (extractf : List Char → List (List Char))
    (resp : Nat → Option (List Char)) :
    ∀ (tries k : Nat),
      (∀ i, k ≤ i → i < k + tries → ∀ c, resp i = some c → extractf c = []) →
      np_fetch_loop extractf resp k tries = [] := by
  intro tries
  induction tries with
  | zero => intro k _; rfl
  | succ t ih =>
    intro k h
    have hrec := ih (k + 1) (fun i hi1 hi2 c hc => h i (by omega) (by omega) c hc)
    show np_fetch_loop extractf resp k (t + 1) = _
    cases hk : resp k with
    | some c =>
      have hce : extractf c = [] := h k (Nat.le_refl k) (by omega) c hk
      by_cases hemp : c.isEmpty
      · simp [np_fetch_loop, hk, hemp, hrec]
      · simp only [Bool.not_eq_true] at hemp
        simp [np_fetch_loop, hk, hemp, hce, hrec]
    | none =>
      simp only [np_fetch_loop, hk]
      exact hrec

/-- C8 (confirmed): both fetcher variants yield the nodes of the first
successful attempt when every earlier attempt failed at the network level —
in particular a source failing its first two attempts and succeeding on the
third, under max-retry 2, yields its nodes — and when every attempt within
the retry budget extracts no nodes, the loops return the empty list, with
no exception reaching the caller (the embedded loops are total). -/
theorem c8_fetch_retry_semantics (maxRetry : Nat)
    (extractf : List Char → List (List Char))
    (resp : Nat → Option (List Char)) :
    (∀ j c, j ≤ maxRetry → resp j = some c → c ≠ [] → extractf c ≠ [] →
      (∀ i, i < j → resp i = none) →
      nf_fetch_nodes maxRetry extractf resp = extractf c ∧
      np_fetch_nodes maxRetry extractf resp = extractf c) ∧
    ((∀ k, k ≤ maxRetry → ∀ c, resp k = some c → extractf c = []) →
      nf_fetch_nodes maxRetry extractf resp = [] ∧
      np_fetch_nodes maxRetry extractf resp = []) := by
  constructor
  · intro j c hj hc hcne hene hprev
    constructor
    · exact nf_loop_first_success extractf resp c (maxRetry + 1) 0 j
        (Nat.zero_le j) (by omega) hc (fun i _ hi2 => hprev i hi2)
    · exact np_loop_first_success extractf resp c (maxRetry + 1) 0 j
        (Nat.zero_le j) (by omega) hc hcne hene (fun i _ hi2 => hprev i hi2)
  · intro h
    constructor
    · exact nf_loop_nonodes extractf resp (maxRetry + 1) 0
        (fun i _ hi2 c hc => h i (by omega) c hc)
    · exact np_loop_nonodes extractf resp (maxRetry + 1) 0
        (fun i _ hi2 c hc => h i (by omega) c hc)

/-- Witness for C8: retries fail twice at the network level, the third
attempt succeeds with one node under max-retry 2; and with every attempt
failing, both loops return the empty list. -/
theorem c8_fetch_retry_semantics_witness :
    (nf_fetch_nodes 2 (fun s => [s])
        (fun k => if k = 2 then some "trojan://x@h:1".data else none) =
        ["trojan://x@h:1".data] ∧
      np_fetch_nodes 2 (fun s => [s])
        (fun k => if k = 2 then some "trojan://x@h:1".data else none) =
        ["trojan://x@h:1".data]) ∧
    (nf_fetch_nodes 2 (fun s => [s]) (fun _ => none) = [] ∧
      np_fetch_nodes 2 (fun s => [s]) (fun _ => none) = []) := by
  constructor
  · exact (c8_fetch_retry_semantics 2 (fun s => [s])
      (fun k => if k = 2 then some "trojan://x@h:1".data else none)).1
      2 "trojan://x@h:1".data (by decide) (by decide) (by decide) (by decide)
      (by intro i hi; interval_cases i <;> decide)
  · exact (c8_fetch_retry_semantics 2 (fun s => [s]) (fun _ => none)).2
      (by intro k hk c hc; cases hc)

/-! ### Payload decoder token gate (C9)

`NodeFetcher._try_decode_base64` (node_fetcher.py lines 68-126): an ordered
cascade of decode attempts, each accepted only when the candidate contains a
recognized protocol-scheme token; otherwise the original blob is returned. -/

/-- Scheme tokens tested by the acceptance check (node_fetcher.py lines
79, 90, 101, 118). -/
def nfTokens : List (List Char) :=
  ["vmess://".data, "v2ray://".data, "trojan://".data,
   "shadowsocks://".data, "vless://".data]

/-- The acceptance predicate: the candidate contains at least one token. -/
def hasNodeToken (s : List Char) : Bool :=
  nfTokens.any (fun t => hasSub t s)

/-- Gate a decode attempt through the acceptance predicate. -/
def acceptTok (o : Option (List Char)) : Option (List Char) :=
  match o with
  | some d => if hasNodeToken d then some d else none
  | none => none

/-- First-success choice, the shape of the try/except-and-continue cascade. -/
def oOr (a b : Option (List Char)) : Option (List Char) :=
  match a with
  | some x => some x
  | none => b

/-- The ordered decode attempts of `_try_decode_base64`: strict whole-blob
decode; lenient decode with zero, one or two padding characters appended;
lenient decode after trimming zero to three leading characters; and the
line-by-line decode when the blob has more than one line.  UTF-8 decoding
uses `errors='ignore'` throughout. -/
def nfAttempts (content : List Char) : List (Option (List Char)) :=
  let cleaned := (pyStrip content).filter (fun c => ¬ (c = '\n' ∨ c = '\r'))
  let lines := (pyStrip content).splitOn '\n'
  [acceptTok ((pyB64decodeStrict cleaned).map utf8DecodeIgnore),
   acceptTok ((pyB64decodeLenient cleaned).map utf8DecodeIgnore),
   acceptTok ((pyB64decodeLenient (cleaned ++ ['='])).map utf8DecodeIgnore),
   acceptTok ((pyB64decodeLenient (cleaned ++ ['=', '='])).map utf8DecodeIgnore),
   acceptTok ((pyB64decodeLenient cleaned).map utf8DecodeIgnore),
   acceptTok ((pyB64decodeLenient (cleaned.drop 1)).map utf8DecodeIgnore),
   acceptTok ((pyB64decodeLenient (cleaned.drop 2)).map utf8DecodeIgnore),
   acceptTok ((pyB64decodeLenient (cleaned.drop 3)).map utf8DecodeIgnore),
   if 1 < lines.length then
     acceptTok (some (List.intercalate ['\n']
       (lines.map (fun line =>
         match (pyB64decodeStrict (pyStrip line)).map utf8DecodeIgnore with
         | some d => d
         | none => line))))
   else none]

/-- `NodeFetcher._try_decode_base64`: the first accepted attempt, or the
original content unmodified when no attempt qualifies. -/
def nf_try_decode_base64 (content : List Char) : List Char :=
  ((nfAttempts content).foldr oOr none).getD content

theorem acceptTok_some {o : Option (List Char)} {d : List Char}
    (h : acceptTok o = some d) : hasNodeToken d := by
  cases o with
  | none => cases h
  | some x =>
    have h' : (if hasNodeToken x then some x else none) = some d := h
    by_cases hx : hasNodeToken x
    · rw [if_pos hx] at h'
      cases h'
      exact hx
    · rw [if_neg hx] at h'
      cases h'

theorem oOr_some {a b : Option (List Char)} {d : List Char}
    (h : oOr a b = some d) : a = some d ∨ b = some d := by
  cases a with
  | some x => exact Or.inl h
  | none => exact Or.inr h

theorem foldr_oOr_some : ∀ (os : List (Option (List Char))) (d : List Char),
    os.foldr oOr none = some d → ∃ o ∈ os, o = some d
  | [], d, h => by cases h
  | o :: os, d, h => by
    rcases oOr_some h with h1 | h1
    · exact ⟨o, by simp, h1⟩
    · obtain ⟨o', ho', he⟩ := foldr_oOr_some os d h1
      exact ⟨o', by simp [ho'], he⟩

theorem nfAttempts_gated (content : List Char) :
    ∀ o ∈ nfAttempts content, ∀ d, o = some d → hasNodeToken d := by
  intro o ho d he
  simp only [nfAttempts, List.mem_cons, List.mem_singleton] at ho
  rcases ho with rfl | rfl | rfl | rfl | rfl | rfl | rfl | rfl | rfl | h0
  · exact acceptTok_some he
  · exact acceptTok_some he
  · exact acceptTok_some he
  · exact acceptTok_some he
  · exact acceptTok_some he
  · exact acceptTok_some he
  · exact acceptTok_some he
  · exact acceptTok_some he
  · split at he
    · exact acceptTok_some he
    · cases he
  · cases h0

/-- C9 (confirmed): for every raw blob the decoder either returns the blob
unmodified or returns a candidate containing at least one recognized
protocol-scheme token. -/
theorem c9_decoder_token_gate (content : List Char) :
    nf_try_decode_base64 content = content ∨
      hasNodeToken (nf_try_decode_base64 content) := by
  unfold nf_try_decode_base64
  cases hr : (nfAttempts content).foldr oOr none with
  | none => left; rfl
  | some d =>
    right
    obtain ⟨o, ho, he⟩ := foldr_oOr_some _ d hr
    simpa using nfAttempts_gated content o ho d he

/-! ### Aggregation and priority sort (C10)

`NodeProcessor.merge_nodes` (node/node_processor.py lines 214-259):
concurrently fetched per-source node lists (`executor.map` preserves source
order) are deduplicated by the loop of lines 234-248 and then sorted by
`_sort_nodes_by_quality`. -/

/-- `NodeProcessor.merge_nodes` on the per-source fetch results. -/
def merge_nodes (results : List (List (List Char))) : List (List Char) :=
  sort_nodes_by_quality (mergeDedup results.flatten)

theorem sorted_sInsert_qual (x : List Char) (l : List (List Char))
    (h : l.Pairwise (fun a b => get_priority b ≤ get_priority a)) :
    (sInsert leQual x l).Pairwise
      (fun a b => get_priority b ≤ get_priority a) := by
  induction l with
  | nil => simp [sInsert]
  | cons y ys ih =>
    rcases List.pairwise_cons.mp h with ⟨hy, hys⟩
    simp only [sInsert]
    by_cases hle : leQual x y
    · rw [if_pos hle]
      have hxy : get_priority y ≤ get_priority x := by
        simpa [leQual] using hle
      refine List.pairwise_cons.mpr ⟨?_, h⟩
      intro z hz
      rcases List.mem_cons.mp hz with rfl | hz'
      · exact hxy
      · exact le_trans (hy z hz') hxy
    · rw [if_neg hle]
      have hxy : get_priority x < get_priority y := by
        simp only [leQual, decide_eq_true_eq] at hle
        omega
      refine List.pairwise_cons.mpr ⟨?_, ih hys⟩
      intro z hz
      rcases (mem_sInsert leQual x z ys).mp hz with rfl | hz'
      · omega
      · exact hy z hz'

theorem filter_sInsert_qual (p : Nat) (x : List Char) (l : List (List Char)) :
    (sInsert leQual x l).filter (fun n => get_priority n == p) =
      if get_priority x == p then
        x :: l.filter (fun n => get_priority n == p)
      else l.filter (fun n => get_priority n == p) := by
  induction l with
  | nil => by_cases hx : (get_priority x == p) <;> simp [sInsert, hx]
  | cons y ys ih =>
    simp only [sInsert]
    by_cases hle : leQual x y
    · rw [if_pos hle]
      by_cases hx : (get_priority x == p) <;> simp [List.filter_cons, hx]
    · rw [if_neg hle]
      by_cases hx : (get_priority x == p)
      · by_cases hy : (get_priority y == p)
        · exfalso
          rw [beq_iff_eq] at hx hy
          have : leQual x y = true := by
            simp [leQual, hx, hy]
          exact hle this
        · simp [List.filter_cons, hy, hx, ih]
      · by_cases hy : (get_priority y == p) <;>
          simp [List.filter_cons, hy, hx, ih]

theorem filter_sort_quality (p : Nat) (l : List (List Char)) :
    (sort_nodes_by_quality l).filter (fun n => get_priority n == p) =
      l.filter (fun n => get_priority n == p) := by
  induction l with
  | nil => rfl
  | cons x xs ih =>
    have ih' : (sSort leQual xs).filter (fun n => get_priority n == p) =
        xs.filter (fun n => get_priority n == p) := ih
    show (sInsert leQual x (sSort leQual xs)).filter _ = _
    rw [filter_sInsert_qual, ih']
    by_cases hx : (get_priority x == p) <;> simp [List.filter_cons, hx]

/-- C10 (confirmed): the aggregated list returned by `merge_nodes` is always
sorted in descending order of the static protocol-priority table — vless
highest at 10, then vmess, trojan and so on, unknown protocols lowest at 2 —
and the sort is stable with respect to the deduplicated first-seen order:
for every priority value, the nodes of that priority appear exactly as they
did before sorting. -/
theorem c10_merge_nodes_priority_sorted
    (results : List (List (List Char))) (p : Nat) :
    (merge_nodes results).Pairwise
      (fun a b => get_priority b ≤ get_priority a) ∧
    (merge_nodes results).filter (fun n => get_priority n == p) =
      (mergeDedup results.flatten).filter (fun n => get_priority n == p) ∧
    get_priority "vless://aaaa".data = 10 ∧
    get_priority "vmess://aaaa".data = 9 ∧
    get_priority "trojan://aaaa".data = 8 ∧
    get_priority "unknownscheme://aaaa".data = 2 := by
  refine ⟨?_, filter_sort_quality p _, by decide, by decide, by decide, by decide⟩
  show (sort_nodes_by_quality _).Pairwise _
  generalize mergeDedup results.flatten = l
  induction l with
  | nil => simp [sort_nodes_by_quality, sSort]
  | cons x xs ih =>
    exact sorted_sInsert_qual x _ ih
